import Mathlib

/-!
Verification of the bit-vector literal-construction and shift-operator surface
(`src/macros.rs`) of the `bitvec` crate, over a shallow embedding.

What is embedded from the source (`src/macros.rs`):
  * the `bitvec!` macro arms and their expansions into `__bitvec_impl!`
    (explicit list form, repeat form, trailing-comma forms, default
    `BigEndian` / `u8` selectors);
  * the marker-to-bit computation `$elt as u8 > 0` performed by
    `__bitvec_impl!` (lines 84 and 90);
  * the shift-operator adapters generated by `__bitslice_shift!` and
    `__bitvec_shift!`, whose bodies forward to the canonical `usize`
    implementation after the Rust cast `shamt as usize`.

What is modelled from the spec (the `BitVec`/`BitSlice` core, the `Endian`
policies and the `Bits` element trait are not part of the given source —
only this macro surface is): the ordering policies (spec 4.1), the element
test/set operations (spec 4.2), bulk construction from a `&[bool]` /
iterator of `bool` (spec 4.4), and the canonical logical shift algorithm
(spec 4.3).  Machine integers are represented as `Nat`/`Int` with explicit
`% 2 ^ w` where Rust truncates; a finite floating-point literal is
represented exactly as a signed fraction, and the Rust float-to-integer
`as` cast is truncation toward zero saturating to the target range.
-/

namespace Bitvec

/-- A primitive literal passed to the `bitvec!` macro: the macro accepts
integer, floating-point, and `bool` expressions (`src/macros.rs` line 6).
An integer literal of any Rust width is represented by its mathematical
value; a finite (non-NaN, non-infinite) float literal is represented
exactly as the fraction `fnum / fden` (e.g. `0.5` is `float 1 2`). -/
inductive Marker where
  | int (v : Int)
  | float (fnum : Int) (fden : Nat)
  | bool (b : Bool)
deriving DecidableEq, Repr

/-- Rust cast `$elt as u8` (the cast performed at `src/macros.rs` lines 84
and 90).  On integers `as u8` keeps the low 8 bits of the two's-complement
representation, i.e. the value mod 256.  On finite floats it truncates
toward zero and saturates to `[0, 255]`.  On `bool` it is 1 / 0. -/
def Marker.asU8 : Marker → Nat
  | .int v => (v % 256).toNat
  | .float fnum fden => if fnum ≤ 0 then 0 else min 255 (fnum.toNat / fden)
  | .bool b => if b then 1 else 0

/-- The bit stored for one macro argument: `$elt as u8 > 0`
(`src/macros.rs` lines 84 and 90). -/
def markerBit (m : Marker) : Bool := m.asU8 > 0

/-- Modelled from the spec (4.1): the two standard ordering policies.
The `BigEndian` / `LittleEndian` types themselves are outside the given
source; only their names appear in the macro expansions. -/
inductive Endian where
  | BigEndian
  | LittleEndian
deriving DecidableEq, Repr

/-- Modelled from the spec (4.1): the policy maps a logical in-element bit
index `i` (with `0 ≤ i < w`) to the physical bit position inside one
element of width `w`: forward/"big" uses `(w-1) - i`, reverse/"little"
uses `i`. -/
def Endian.pos : Endian → Nat → Nat → Nat
  | .BigEndian, w, i => w - 1 - i
  | .LittleEndian, _, i => i

/-- Modelled from the spec (4.2): `test(element, position)` — read one
physical bit of an element, the element being the value of one unsigned
integer of the packing width. -/
def eltTest (x p : Nat) : Bool := x.testBit p

/-- Modelled from the spec (4.2): `set(element, position, value)` —
replace the physical bit `p` of the element by `b`, leaving every other
bit unchanged.  Written arithmetically: the part above bit `p`, then bit
`p` itself, then the part below. -/
def eltSet (x p : Nat) (b : Bool) : Nat :=
  2 ^ (p + 1) * (x / 2 ^ (p + 1)) + (if b then 2 ^ p else 0) + x % 2 ^ p

theorem eltTest_eltSet_self (x p : Nat) (b : Bool) :
    eltTest (eltSet x p b) p = b := by
  have hp : 0 < 2 ^ p := Nat.pos_pow_of_pos p (by omega)
  have hL : x % 2 ^ p < 2 ^ p := Nat.mod_lt _ hp
  have hsplit : eltSet x p b =
      2 ^ p * (2 * (x / 2 ^ (p + 1)) + (if b then 1 else 0)) + x % 2 ^ p := by
    unfold eltSet
    cases b <;> simp [Nat.pow_succ] <;> ring
  rw [eltTest, Nat.testBit_to_div_mod, hsplit,
    Nat.mul_add_div hp, Nat.div_eq_of_lt hL]
  cases b
  · simp
  · rw [if_pos rfl]
    simp only [decide_eq_true_eq]
    omega

theorem eltTest_eltSet_of_lt (x p q : Nat) (b : Bool) (hq : q < p) :
    eltTest (eltSet x p b) q = eltTest x q := by
  have hp : 0 < 2 ^ p := Nat.pos_pow_of_pos p (by omega)
  have hL : x % 2 ^ p < 2 ^ p := Nat.mod_lt _ hp
  have hsplit : eltSet x p b =
      2 ^ p * (2 * (x / 2 ^ (p + 1)) + (if b then 1 else 0)) + x % 2 ^ p := by
    unfold eltSet
    cases b <;> simp [Nat.pow_succ] <;> ring
  -- both sides only depend on the residue mod 2 ^ p, which is unchanged
  have hq1 : 0 < 2 ^ q := Nat.pos_pow_of_pos q (by omega)
  have key : ∀ y c : Nat, (2 ^ p * c + y) / 2 ^ q % 2 = y / 2 ^ q % 2 := by
    intro y c
    have hfac : 2 ^ p * c = 2 ^ q * (2 ^ (p - q - 1) * (2 * c)) := by
      have : 2 ^ q * (2 ^ (p - q - 1) * 2) = 2 ^ p := by
        rw [← Nat.pow_succ, ← Nat.pow_add]
        congr 1
        omega
      calc 2 ^ p * c = 2 ^ q * (2 ^ (p - q - 1) * 2) * c := by rw [this]
        _ = 2 ^ q * (2 ^ (p - q - 1) * (2 * c)) := by ring
    rw [hfac, Nat.add_comm, Nat.add_mul_div_left _ _ hq1]
    have heven : 2 ^ (p - q - 1) * (2 * c) = 2 * (2 ^ (p - q - 1) * c) := by ring
    rw [heven, Nat.add_mul_mod_self_left]
  have hx : x = 2 ^ p * (x / 2 ^ p) + x % 2 ^ p := (Nat.div_add_mod x (2 ^ p)).symm
  rw [eltTest, eltTest, Nat.testBit_to_div_mod, Nat.testBit_to_div_mod, hsplit]
  rw [key]
  conv_rhs => rw [hx]
  rw [key]

theorem eltTest_eltSet_of_gt (x p q : Nat) (b : Bool) (hq : p < q) :
    eltTest (eltSet x p b) q = eltTest x q := by
  have hp1 : 0 < 2 ^ (p + 1) := Nat.pos_pow_of_pos (p + 1) (by omega)
  -- the quotient by 2 ^ (p+1) is unchanged by eltSet
  have hquot : eltSet x p b / 2 ^ (p + 1) = x / 2 ^ (p + 1) := by
    have hsmall : (if b then 2 ^ p else 0) + x % 2 ^ p < 2 ^ (p + 1) := by
      have h1 : x % 2 ^ p < 2 ^ p := Nat.mod_lt _ (Nat.pos_pow_of_pos p (by omega))
      have h2 : (if b then 2 ^ p else 0) ≤ 2 ^ p := by cases b <;> simp
      have : (2 : Nat) ^ (p + 1) = 2 ^ p + 2 ^ p := by
        rw [Nat.pow_succ]; ring
      omega
    unfold eltSet
    rw [Nat.add_assoc, Nat.mul_add_div hp1, Nat.div_eq_of_lt hsmall]
    omega
  have hdiv : ∀ y : Nat, y / 2 ^ q = y / 2 ^ (p + 1) / 2 ^ (q - p - 1) := by
    intro y
    rw [Nat.div_div_eq_div_mul, ← Nat.pow_add]
    congr 2
    omega
  rw [eltTest, eltTest, Nat.testBit_to_div_mod, Nat.testBit_to_div_mod,
    hdiv (eltSet x p b), hdiv x, hquot]

theorem eltTest_eltSet_of_ne (x p q : Nat) (b : Bool) (hq : q ≠ p) :
    eltTest (eltSet x p b) q = eltTest x q := by
  rcases Nat.lt_or_ge q p with h | h
  · exact eltTest_eltSet_of_lt x p q b h
  · exact eltTest_eltSet_of_gt x p q b (by omega)

theorem Endian.pos_lt (e : Endian) (w i : Nat) (hi : i < w) : e.pos w i < w := by
  cases e <;> simp [Endian.pos] <;> omega

theorem Endian.pos_inj (e : Endian) (w i j : Nat) (hi : i < w) (hj : j < w)
    (hne : i ≠ j) : e.pos w i ≠ e.pos w j := by
  cases e <;> simp [Endian.pos] <;> omega

/-- Modelled from the spec (3): the owning bit-vector container.  The
growable element buffer is a list of element values (each the value of one
unsigned integer of `width` bits) together with the logical bit length.
The ordering policy and the element width, compile-time type parameters
`E : Endian, T : Bits` in the source, are carried as data so that the
claims can quantify over them. -/
structure BitVec where
  endian : Endian
  width  : Nat
  elts   : List Nat
  len    : Nat
deriving DecidableEq, Repr

/-- Modelled from the spec (4.3): read the bit at logical index `i`:
decompose `i` into (element index `i / width`, in-element index
`i % width`), consult the ordering policy for the physical position, and
test that bit of the element. -/
def BitVec.get (v : BitVec) (i : Nat) : Bool :=
  eltTest (v.elts.getD (i / v.width) 0) (v.endian.pos v.width (i % v.width))

/-- Modelled from the spec (3, 4.4): the growable buffer grows by one
zero element exactly when the next bit to be appended starts a new
element. -/
def BitVec.capElts (v : BitVec) : List Nat :=
  if v.len / v.width < v.elts.length then v.elts else v.elts ++ [0]

/-- Modelled from the spec (4.4): append one bit at logical index `len`,
writing it through the ordering policy into the element at `len / width`. -/
def BitVec.push (v : BitVec) (b : Bool) : BitVec :=
  { v with
    elts := v.capElts.set (v.len / v.width)
      (eltSet (v.capElts.getD (v.len / v.width) 0)
        (v.endian.pos v.width (v.len % v.width)) b)
    len := v.len + 1 }

/-- Modelled from the spec (4.4): bulk construction from a sequence of
`bool` — `BitVec::<E, T>::from(&[bool])` and collecting an iterator of
`bool` both append the booleans in order to an empty vector. -/
def BitVec.fromBools (e : Endian) (w : Nat) (bs : List Bool) : BitVec :=
  bs.foldl BitVec.push { endian := e, width := w, elts := [], len := 0 }

/-- The logical content of a vector: its `len` bits in index order. -/
def BitVec.toList (v : BitVec) : List Bool :=
  (List.range v.len).map v.get

theorem push_endian (v : BitVec) (b : Bool) : (v.push b).endian = v.endian := rfl

theorem push_width (v : BitVec) (b : Bool) : (v.push b).width = v.width := rfl

theorem push_len (v : BitVec) (b : Bool) : (v.push b).len = v.len + 1 := rfl

theorem div_lt_capElts_length (v : BitVec) (hw : 0 < v.width)
    (hcap : v.len ≤ v.elts.length * v.width) :
    v.len / v.width < v.capElts.length := by
  unfold BitVec.capElts
  split
  · assumption
  · have : v.len / v.width ≤ v.elts.length := by
      calc v.len / v.width ≤ v.elts.length * v.width / v.width :=
            Nat.div_le_div_right hcap
        _ = v.elts.length := Nat.mul_div_cancel _ hw
    simp
    omega

theorem capElts_getD_lt (v : BitVec) (q : Nat) (hq : q < v.elts.length) :
    v.capElts.getD q 0 = v.elts.getD q 0 := by
  unfold BitVec.capElts
  split
  · rfl
  · exact List.getD_append _ _ _ _ hq

theorem capElts_getD_cur (v : BitVec) (hw : 0 < v.width)
    (hcap : v.len ≤ v.elts.length * v.width) :
    v.capElts.getD (v.len / v.width) 0 = v.elts.getD (v.len / v.width) 0 := by
  unfold BitVec.capElts
  split
  · rfl
  · rename_i h
    have hle : v.len / v.width ≤ v.elts.length := by
      calc v.len / v.width ≤ v.elts.length * v.width / v.width :=
            Nat.div_le_div_right hcap
        _ = v.elts.length := Nat.mul_div_cancel _ hw
    have hj : v.len / v.width = v.elts.length := by omega
    rw [hj, List.getD_append_right _ _ _ _ (Nat.le_refl _), Nat.sub_self,
      List.getD_cons_zero, List.getD_eq_default _ _ (Nat.le_refl _)]

theorem push_cap (v : BitVec) (b : Bool) (hw : 0 < v.width)
    (hcap : v.len ≤ v.elts.length * v.width) :
    (v.push b).len ≤ (v.push b).elts.length * (v.push b).width := by
  have h := div_lt_capElts_length v hw hcap
  show v.len + 1 ≤ (v.capElts.set _ _).length * v.width
  rw [List.length_set]
  have : v.len < v.capElts.length * v.width := by
    have h2 : v.len % v.width < v.width := Nat.mod_lt _ hw
    have h3 : v.len = v.width * (v.len / v.width) + v.len % v.width :=
      (Nat.div_add_mod _ _).symm
    calc v.len < v.width * (v.len / v.width) + v.width := by omega
      _ = v.width * (v.len / v.width + 1) := by ring
      _ ≤ v.width * v.capElts.length := by
          exact Nat.mul_le_mul_left _ (by omega)
      _ = v.capElts.length * v.width := Nat.mul_comm _ _
  omega

theorem push_get_last (v : BitVec) (b : Bool) (hw : 0 < v.width)
    (hcap : v.len ≤ v.elts.length * v.width) :
    (v.push b).get v.len = b := by
  have hj := div_lt_capElts_length v hw hcap
  show eltTest (((v.capElts.set _ _).getD (v.len / v.width) 0)) _ = b
  rw [List.getD_eq_getElem?_getD, List.getElem?_set_self (by simpa using hj)]
  exact eltTest_eltSet_self _ _ b

theorem push_get_lt (v : BitVec) (b : Bool) (hw : 0 < v.width)
    (hcap : v.len ≤ v.elts.length * v.width) (i : Nat) (hi : i < v.len) :
    (v.push b).get i = v.get i := by
  have hqlt : i / v.width < v.elts.length := by
    rw [Nat.div_lt_iff_lt_mul hw]
    omega
  simp only [BitVec.get, BitVec.push]
  by_cases hqj : i / v.width = v.len / v.width
  · -- same element as the appended bit: in-element indices differ
    have hrr : i % v.width ≠ v.len % v.width := by
      have h1 : i = v.width * (i / v.width) + i % v.width :=
        (Nat.div_add_mod _ _).symm
      have h2 : v.len = v.width * (v.len / v.width) + v.len % v.width :=
        (Nat.div_add_mod _ _).symm
      rw [hqj] at h1
      omega
    rw [List.getD_eq_getElem?_getD, hqj,
      List.getElem?_set_self (by simpa using div_lt_capElts_length v hw hcap),
      Option.getD_some]
    rw [eltTest_eltSet_of_ne _ _ _ _
      (Endian.pos_inj _ _ _ _ (Nat.mod_lt _ hw) (Nat.mod_lt _ hw) hrr)]
    rw [capElts_getD_cur v hw hcap, ← hqj]
  · -- a different element: untouched by the write
    rw [List.getD_eq_getElem?_getD, List.getElem?_set_ne (by omega),
      ← List.getD_eq_getElem?_getD, capElts_getD_lt v _ hqlt]

theorem fromBools_spec (e : Endian) (w : Nat) (hw : 0 < w) (bs : List Bool) :
    (BitVec.fromBools e w bs).endian = e ∧
    (BitVec.fromBools e w bs).width = w ∧
    (BitVec.fromBools e w bs).len = bs.length ∧
    bs.length ≤ (BitVec.fromBools e w bs).elts.length * w ∧
    ∀ i, i < bs.length → (BitVec.fromBools e w bs).get i = bs.getD i false := by
  induction bs using List.reverseRecOn with
  | nil =>
    refine ⟨rfl, rfl, rfl, by simp, ?_⟩
    intro i hi
    simp at hi
  | append_singleton l a ih =>
    obtain ⟨ihe, ihw, ihl, ihc, ihg⟩ := ih
    have hstep : BitVec.fromBools e w (l ++ [a]) = (BitVec.fromBools e w l).push a := by
      unfold BitVec.fromBools
      rw [List.foldl_append]
      rfl
    set v := BitVec.fromBools e w l with hv
    have hw' : 0 < v.width := by rw [ihw]; exact hw
    have hcap : v.len ≤ v.elts.length * v.width := by rw [ihl, ihw]; exact ihc
    refine ⟨by rw [hstep, push_endian]; exact ihe,
      by rw [hstep, push_width]; exact ihw,
      by rw [hstep, push_len, ihl]; simp,
      ?_, ?_⟩
    · have := push_cap v a hw' hcap
      rw [push_len, push_width, ihl, ihw] at this
      rw [hstep]
      simpa using this
    · intro i hi
      rw [hstep]
      rcases Nat.lt_or_ge i l.length with h | h
      · rw [push_get_lt v a hw' hcap i (by omega), ihg i h,
          List.getD_append _ _ _ _ h]
      · have hi' : i = l.length := by
          simp at hi
          omega
        subst hi'
        rw [← ihl, push_get_last v a hw' hcap, ihl,
          List.getD_append_right _ _ _ _ (Nat.le_refl _), Nat.sub_self]
        rfl

theorem fromBools_len (e : Endian) (w : Nat) (hw : 0 < w) (bs : List Bool) :
    (BitVec.fromBools e w bs).len = bs.length :=
  (fromBools_spec e w hw bs).2.2.1

theorem fromBools_get (e : Endian) (w : Nat) (hw : 0 < w) (bs : List Bool)
    (i : Nat) (hi : i < bs.length) :
    (BitVec.fromBools e w bs).get i = bs.getD i false :=
  (fromBools_spec e w hw bs).2.2.2.2 i hi

theorem fromBools_toList (e : Endian) (w : Nat) (hw : 0 < w) (bs : List Bool) :
    (BitVec.fromBools e w bs).toList = bs := by
  obtain ⟨-, -, hlen, -, hget⟩ := fromBools_spec e w hw bs
  unfold BitVec.toList
  rw [hlen]
  apply List.ext_getElem
  · simp
  · intro i h1 h2
    simp only [List.getElem_map, List.getElem_range]
    rw [hget i (by simpa using h2), List.getD_eq_getElem?_getD,
      List.getElem?_eq_getElem h2, Option.getD_some]

theorem getD_map_range (f : Nat → Bool) (n i : Nat) (hi : i < n) :
    ((List.range n).map f).getD i false = f i := by
  rw [List.getD_eq_getElem?_getD, List.getElem?_map, List.getElem?_range hi]
  rfl

/-- Modelled from the spec (4.3): the canonical logical left shift by a
`usize` amount.  For every surviving logical position `j` in
`[0, len - k)` the new bit at `j` is the old bit at `j + k`; the vacated
high positions are filled with 0; the logical length is unchanged. -/
def BitVec.shl (v : BitVec) (k : Nat) : BitVec :=
  BitVec.fromBools v.endian v.width
    ((List.range v.len).map fun j => if j + k < v.len then v.get (j + k) else false)

/-- Modelled from the spec (4.3): the canonical logical right shift by a
`usize` amount.  The new bit at `j` (for `j ≥ k`) is the old bit at
`j - k`; the vacated low positions are filled with 0; the logical length
is unchanged. -/
def BitVec.shr (v : BitVec) (k : Nat) : BitVec :=
  BitVec.fromBools v.endian v.width
    ((List.range v.len).map fun j => if k ≤ j then v.get (j - k) else false)

theorem shl_len (v : BitVec) (hw : 0 < v.width) (k : Nat) :
    (v.shl k).len = v.len := by
  unfold BitVec.shl
  rw [fromBools_len _ _ hw]
  simp

theorem shr_len (v : BitVec) (hw : 0 < v.width) (k : Nat) :
    (v.shr k).len = v.len := by
  unfold BitVec.shr
  rw [fromBools_len _ _ hw]
  simp

theorem shl_get (v : BitVec) (hw : 0 < v.width) (k i : Nat) (hi : i < v.len) :
    (v.shl k).get i = if i + k < v.len then v.get (i + k) else false := by
  unfold BitVec.shl
  rw [fromBools_get _ _ hw _ i (by simpa using hi), getD_map_range _ _ _ hi]

theorem shr_get (v : BitVec) (hw : 0 < v.width) (k i : Nat) (hi : i < v.len) :
    (v.shr k).get i = if k ≤ i then v.get (i - k) else false := by
  unfold BitVec.shr
  rw [fromBools_get _ _ hw _ i (by simpa using hi), getD_map_range _ _ _ hi]

/-- The canonical shift-amount width: Rust `usize`, modelled for a 64-bit
platform (spec 4.5 documents the canonical-width normalization). -/
def usizeBits : Nat := 64

/-- Rust cast `shamt as usize` (`src/macros.rs` lines 102, 109, 123, 130,
139, 146): an integer-to-integer `as` cast keeps the low `usizeBits` bits
of the operand, i.e. reduces its value mod `2 ^ usizeBits`; it neither
guards nor saturates. -/
def castUsize (n : Nat) : Nat := n % 2 ^ usizeBits

/-- Embeds `impl Shl<$t> for BitVec` (`src/macros.rs` lines 119-125):
`fn shl(self, shamt: $t) -> Self::Output { Shl::<usize>::shl(self, shamt as usize) }`.
The shift-amount operand of type `$t` is modelled by its non-negative
value `n`. -/
def BitVec.shlOp (v : BitVec) (n : Nat) : BitVec := v.shl (castUsize n)

/-- Embeds `impl ShlAssign<$t> for BitVec` (lines 128-132): the state of
the receiver after `ShlAssign::<usize>::shl_assign(self, shamt as usize)`. -/
def BitVec.shlAssignOp (v : BitVec) (n : Nat) : BitVec := v.shl (castUsize n)

/-- Embeds `impl Shr<$t> for BitVec` (lines 135-141). -/
def BitVec.shrOp (v : BitVec) (n : Nat) : BitVec := v.shr (castUsize n)

/-- Embeds `impl ShrAssign<$t> for BitVec` (lines 144-148). -/
def BitVec.shrAssignOp (v : BitVec) (n : Nat) : BitVec := v.shr (castUsize n)

/-- Embeds `impl ShlAssign<$t> for BitSlice` (`src/macros.rs` lines
100-104): the logical content of the slice after
`ShlAssign::<usize>::shl_assign(self, shamt as usize)`; the borrowed
slice's run of bits is modelled by the same logical state as a vector's. -/
def sliceShlAssignOp (v : BitVec) (n : Nat) : BitVec := v.shl (castUsize n)

/-- Embeds `impl ShrAssign<$t> for BitSlice` (lines 107-111). -/
def sliceShrAssignOp (v : BitVec) (n : Nat) : BitVec := v.shr (castUsize n)

/-- Embeds `__bitvec_impl![$end, $prim; $($elt),*]` (`src/macros.rs`
lines 82-87): build `init: &[bool] = &[$($elt as u8 > 0),*]` and then
`BitVec::<$end, $prim>::from(init)`. -/
def bitvecImplList (e : Endian) (w : Nat) (elts : List Marker) : BitVec :=
  BitVec.fromBools e w (elts.map markerBit)

/-- Embeds `__bitvec_impl![$end, $prim; $elt; $rep]` (lines 89-93):
`iter::repeat($elt as u8 > 0).take($rep).collect::<BitVec<$end, $prim>>()`. -/
def bitvecImplRepeat (e : Endian) (w : Nat) (elt : Marker) (rep : Nat) : BitVec :=
  BitVec.fromBools e w (List.replicate rep (markerBit elt))

/-- Embeds the `bitvec![$end, $prim; $($elt),*]` arm (`src/macros.rs`
lines 35-37). -/
def bitvecListFull (e : Endian) (w : Nat) (elts : List Marker) : BitVec :=
  bitvecImplList e w elts

/-- Embeds the trailing-comma arm `bitvec![$end, $prim; $($elt,)*]`
(lines 38-41). -/
def bitvecListFullTrail (e : Endian) (w : Nat) (elts : List Marker) : BitVec :=
  bitvecImplList e w elts

/-- Embeds the `bitvec![$end; $($elt),*]` arm (lines 42-45): the element
width selector is omitted and the expansion inserts `u8`. -/
def bitvecListEndian (e : Endian) (elts : List Marker) : BitVec :=
  bitvecImplList e 8 elts

/-- Embeds the trailing-comma arm `bitvec![$end; $($elt,)*]` (lines
46-49). -/
def bitvecListEndianTrail (e : Endian) (elts : List Marker) : BitVec :=
  bitvecImplList e 8 elts

/-- Embeds the `bitvec![$($elt),*]` arm (lines 50-53): both selectors
omitted, the expansion inserts `BigEndian` and `u8`. -/
def bitvecListPlain (elts : List Marker) : BitVec :=
  bitvecImplList .BigEndian 8 elts

/-- Embeds the trailing-comma arm `bitvec![$($elt,)*]` (lines 54-57). -/
def bitvecListPlainTrail (elts : List Marker) : BitVec :=
  bitvecImplList .BigEndian 8 elts

/-- Embeds the `bitvec![$end, $prim; $elt; $rep]` arm (lines 59-62). -/
def bitvecRepFull (e : Endian) (w : Nat) (elt : Marker) (rep : Nat) : BitVec :=
  bitvecImplRepeat e w elt rep

/-- Embeds the `bitvec![$end; $elt; $rep]` arm (lines 63-66): the width
selector defaults to `u8`. -/
def bitvecRepEndian (e : Endian) (elt : Marker) (rep : Nat) : BitVec :=
  bitvecImplRepeat e 8 elt rep

/-- Embeds the `bitvec![$elt; $rep]` arm (lines 67-70): both selectors
default to `BigEndian` and `u8`. -/
def bitvecRepPlain (elt : Marker) (rep : Nat) : BitVec :=
  bitvecImplRepeat .BigEndian 8 elt rep

theorem getD_replicate_of_lt {α : Type} (a d : α) (n i : Nat) (hi : i < n) :
    (List.replicate n a).getD i d = a := by
  induction n generalizing i with
  | zero => omega
  | succ k ih =>
    cases i with
    | zero => rfl
    | succ j =>
      rw [List.replicate_succ, List.getD_cons_succ]
      exact ih j (by omega)

/-- C1: the spec claims the literal list `[0, 1, -1, 0.5, true, false]`
yields the bits `[0,1,1,1,1,0]` for every ordering policy and element
width.  The code disagrees at the marker `0.5`: `0.5 as u8` truncates to
`0`, so for every policy and width the constructed vector is
`[0,1,1,0,1,0]` — bit 0, not 1, at index 3. -/
theorem c1_literal_marker_bits (e : Endian) (w : Nat) (hw : 0 < w) :
    (bitvecListFull e w
      [.int 0, .int 1, .int (-1), .float 1 2, .bool true, .bool false]).toList
      = [false, true, true, false, true, false] := by
  unfold bitvecListFull bitvecImplList
  rw [fromBools_toList _ _ hw]
  decide

theorem c1_literal_marker_bits_witness :
    (bitvecListFull .BigEndian 8
      [.int 0, .int 1, .int (-1), .float 1 2, .bool true, .bool false]).toList
      = [false, true, true, false, true, false] :=
  c1_literal_marker_bits .BigEndian 8 (by decide)

/-- C2 counterexample: the claim says the stored bit is 1 iff the marker's
numeric value is strictly greater than zero, so every negative marker
would yield bit 0.  The macro stores bit 1 for the marker `-1` (because
`-1 as u8 = 255 > 0`) although `-1 > 0` is false. -/
theorem c2_negative_marker_counterexample :
    (bitvecListPlain [.int (-1)]).get 0 = true ∧ ¬ ((-1 : Int) > 0) := by
  decide

/-- C2 amended: for every marker in either bulk constructor, the stored
bit is 1 iff the marker's value cast to an unsigned 8-bit integer is
strictly greater than 0 (integers: value mod 256; finite floats:
truncated toward zero and saturated to `[0, 255]`; booleans: 1 and 0).
In particular a negative integer marker stores bit 1 exactly when its
value mod 256 is nonzero. -/
theorem c2_stored_bit_iff_asU8_pos (e : Endian) (w : Nat) (hw : 0 < w)
    (ms : List Marker) (i : Nat) (hi : i < ms.length)
    (m : Marker) (n j : Nat) (hj : j < n) :
    ((bitvecImplList e w ms).get i
        = decide (0 < (ms.getD i (.int 0)).asU8)) ∧
    ((bitvecImplRepeat e w m n).get j = decide (0 < m.asU8)) := by
  constructor
  · unfold bitvecImplList
    rw [fromBools_get _ _ hw _ i (by simpa using hi)]
    have hdef : (false : Bool) = markerBit (.int 0) := by decide
    rw [hdef, List.getD_map]
    rfl
  · unfold bitvecImplRepeat
    rw [fromBools_get _ _ hw _ j (by simpa using hj),
      getD_replicate_of_lt _ _ _ _ hj]
    rfl

theorem c2_stored_bit_iff_asU8_pos_witness :
    ((bitvecImplList .BigEndian 8 [.int (-1)]).get 0
        = decide (0 < (([Marker.int (-1)]).getD 0 (.int 0)).asU8)) ∧
    ((bitvecImplRepeat .BigEndian 8 (.int 1) 5).get 2
        = decide (0 < (Marker.int 1).asU8)) :=
  c2_stored_bit_iff_asU8_pos .BigEndian 8 (by decide) [.int (-1)] 0 (by decide)
    (.int 1) 5 2 (by decide)

/-- C3: shifting any vector by an amount at least its logical length, in
either direction, yields a vector of unchanged logical length whose every
bit is 0. -/
theorem c3_shift_saturation (v : BitVec) (k : Nat) (hw : 0 < v.width)
    (hk : v.len ≤ k) :
    (v.shl k).len = v.len ∧ (v.shr k).len = v.len ∧
    (∀ i, i < (v.shl k).len → (v.shl k).get i = false) ∧
    (∀ i, i < (v.shr k).len → (v.shr k).get i = false) := by
  refine ⟨shl_len v hw k, shr_len v hw k, ?_, ?_⟩
  · intro i hi
    rw [shl_len v hw k] at hi
    rw [shl_get v hw k i hi]
    have hni : ¬ (i + k < v.len) := by omega
    simp [hni]
  · intro i hi
    rw [shr_len v hw k] at hi
    rw [shr_get v hw k i hi]
    have hni : ¬ (k ≤ i) := by omega
    simp [hni]

theorem c3_shift_saturation_witness :
    ((bitvecListPlain [.int 1, .int 0, .int 1]).shl 5).len = 3 ∧
    ((bitvecListPlain [.int 1, .int 0, .int 1]).shr 5).len = 3 ∧
    ((bitvecListPlain [.int 1, .int 0, .int 1]).shl 5).get 0 = false ∧
    ((bitvecListPlain [.int 1, .int 0, .int 1]).shr 5).get 2 = false := by
  have h := c3_shift_saturation (bitvecListPlain [.int 1, .int 0, .int 1]) 5
    (by decide) (by decide)
  exact ⟨h.1.trans (by decide), h.2.1.trans (by decide),
    h.2.2.1 0 (by decide), h.2.2.2 2 (by decide)⟩

/-- C4: for a shift amount expressed in any operand width of at most the
canonical `usize` width — in particular 8, 16, 32 or 64 bits — every
generated shift operator (plain and assignment forms, on the vector and
on the slice) produces the same result as the canonical usize-amount
shift: the cast is value-preserving on amounts representable in the
operand width. -/
theorem c4_width_normalization (v : BitVec) (t n : Nat)
    (ht : t ≤ usizeBits) (hn : n < 2 ^ t) :
    v.shlOp n = v.shl n ∧ v.shlAssignOp n = v.shl n ∧
    sliceShlAssignOp v n = v.shl n ∧
    v.shrOp n = v.shr n ∧ v.shrAssignOp n = v.shr n ∧
    sliceShrAssignOp v n = v.shr n := by
  have hcast : castUsize n = n := by
    unfold castUsize
    exact Nat.mod_eq_of_lt
      (lt_of_lt_of_le hn (Nat.pow_le_pow_right (by omega) ht))
  unfold BitVec.shlOp BitVec.shlAssignOp sliceShlAssignOp
    BitVec.shrOp BitVec.shrAssignOp sliceShrAssignOp
  rw [hcast]
  exact ⟨rfl, rfl, rfl, rfl, rfl, rfl⟩

theorem c4_width_normalization_witness :
    (bitvecListPlain [.int 1, .int 1, .int 0]).shlOp 2
        = (bitvecListPlain [.int 1, .int 1, .int 0]).shl 2 ∧
    (bitvecListPlain [.int 1, .int 1, .int 0]).shlAssignOp 2
        = (bitvecListPlain [.int 1, .int 1, .int 0]).shl 2 ∧
    sliceShlAssignOp (bitvecListPlain [.int 1, .int 1, .int 0]) 2
        = (bitvecListPlain [.int 1, .int 1, .int 0]).shl 2 ∧
    (bitvecListPlain [.int 1, .int 1, .int 0]).shrOp 2
        = (bitvecListPlain [.int 1, .int 1, .int 0]).shr 2 ∧
    (bitvecListPlain [.int 1, .int 1, .int 0]).shrAssignOp 2
        = (bitvecListPlain [.int 1, .int 1, .int 0]).shr 2 ∧
    sliceShrAssignOp (bitvecListPlain [.int 1, .int 1, .int 0]) 2
        = (bitvecListPlain [.int 1, .int 1, .int 0]).shr 2 :=
  c4_width_normalization (bitvecListPlain [.int 1, .int 1, .int 0]) 8 2
    (by decide) (by decide)

/-- C5: the repeat form of the constructor yields a vector of logical
length exactly `rep` in which every bit is the bit derived from the one
marker; a repeat count of 0 yields a zero-length vector. -/
theorem c5_repeat_construction (e : Endian) (w : Nat) (hw : 0 < w)
    (m : Marker) (n : Nat) :
    (bitvecImplRepeat e w m n).len = n ∧
    ∀ i, i < n → (bitvecImplRepeat e w m n).get i = markerBit m := by
  constructor
  · unfold bitvecImplRepeat
    rw [fromBools_len _ _ hw]
    exact List.length_replicate _ _
  · intro i hi
    unfold bitvecImplRepeat
    rw [fromBools_get _ _ hw _ i (by simpa using hi),
      getD_replicate_of_lt _ _ _ _ hi]

theorem c5_repeat_construction_witness :
    (bitvecRepPlain (.int 1) 5).len = 5 ∧
    (bitvecRepPlain (.int 1) 5).get 2 = true ∧
    (bitvecRepPlain (.int 0) 0).len = 0 := by
  have h1 := c5_repeat_construction .BigEndian 8 (by decide) (.int 1) 5
  have h2 := c5_repeat_construction .BigEndian 8 (by decide) (.int 0) 0
  exact ⟨h1.1, (h1.2 2 (by decide)).trans (by decide), h2.1⟩

/-- C6: omitting the policy selector, or both selectors, expands to the
same construction as writing the defaults explicitly: the forward
(`BigEndian`) policy and the 8-bit (`u8`) element, in both the list form
and the repeat form. -/
theorem c6_default_selectors :
    (∀ (e : Endian) (elts : List Marker),
      bitvecListEndian e elts = bitvecListFull e 8 elts) ∧
    (∀ (elts : List Marker),
      bitvecListPlain elts = bitvecListFull .BigEndian 8 elts) ∧
    (∀ (e : Endian) (m : Marker) (n : Nat),
      bitvecRepEndian e m n = bitvecRepFull e 8 m n) ∧
    (∀ (m : Marker) (n : Nat),
      bitvecRepPlain m n = bitvecRepFull .BigEndian 8 m n) :=
  ⟨fun _ _ => rfl, fun _ => rfl, fun _ _ _ => rfl, fun _ _ => rfl⟩

/-- C7: every trailing-comma arm of the bit-list forms expands to exactly
the same construction as the corresponding arm without the trailing
separator. -/
theorem c7_trailing_comma :
    (∀ (e : Endian) (w : Nat) (elts : List Marker),
      bitvecListFullTrail e w elts = bitvecListFull e w elts) ∧
    (∀ (e : Endian) (elts : List Marker),
      bitvecListEndianTrail e elts = bitvecListEndian e elts) ∧
    (∀ (elts : List Marker),
      bitvecListPlainTrail elts = bitvecListPlain elts) :=
  ⟨fun _ _ _ => rfl, fun _ _ => rfl, fun _ => rfl⟩

theorem implList_get (e : Endian) (w : Nat) (hw : 0 < w) (ms : List Marker)
    (i : Nat) (hi : i < ms.length) :
    (bitvecImplList e w ms).get i = markerBit (ms.getD i (.int 0)) := by
  unfold bitvecImplList
  rw [fromBools_get _ _ hw _ i (by simpa using hi)]
  have hdef : (false : Bool) = markerBit (.int 0) := by decide
  rw [hdef, List.getD_map]

theorem implRepeat_get (e : Endian) (w : Nat) (hw : 0 < w) (m : Marker)
    (n j : Nat) (hj : j < n) :
    (bitvecImplRepeat e w m n).get j = markerBit m := by
  unfold bitvecImplRepeat
  rw [fromBools_get _ _ hw _ j (by simpa using hj),
    getD_replicate_of_lt _ _ _ _ hj]

theorem markerBit_int (v : Int) : markerBit (.int v) = decide (0 < v % 256) := by
  show decide (0 < (v % 256).toNat) = decide (0 < v % 256)
  simp only [decide_eq_decide]
  omega

theorem markerBit_float_lt_one (fnum : Int) (fden : Nat) (h0 : 0 < fnum)
    (h1 : fnum < (fden : Int)) : markerBit (.float fnum fden) = false := by
  show decide (0 < (Marker.float fnum fden).asU8) = false
  have hlt : fnum.toNat < fden := by omega
  have hdiv : fnum.toNat / fden = 0 := Nat.div_eq_of_lt hlt
  have hnle : ¬ fnum ≤ 0 := by omega
  simp [Marker.asU8, hdiv, hnle]

/-- C9: in either constructor form — the explicit bit list and the
repeated bit — and at every position, the macro casts the marker to `u8`
first and only then compares with zero: an integer marker `v` stores bit
`(v mod 256) > 0`, so a strictly positive marker congruent to 0 mod 256
(such as 256 or 512) stores bit 0, and a float marker strictly between 0
and 1 truncates to 0 and stores bit 0, in both forms. -/
theorem c9_cast_before_compare (e : Endian) (w : Nat) (hw : 0 < w) :
    (∀ (ms : List Marker) (i : Nat), i < ms.length → ∀ v : Int,
        ms.getD i (.int 0) = .int v →
        (bitvecImplList e w ms).get i = decide (0 < v % 256)) ∧
    (∀ (v : Int) (n j : Nat), j < n →
        (bitvecImplRepeat e w (.int v) n).get j = decide (0 < v % 256)) ∧
    (∀ v : Int, 0 < v → v % 256 = 0 →
        (∀ (ms : List Marker) (i : Nat), i < ms.length →
            ms.getD i (.int 0) = .int v →
            (bitvecImplList e w ms).get i = false) ∧
        (∀ (n j : Nat), j < n →
            (bitvecImplRepeat e w (.int v) n).get j = false)) ∧
    (∀ (fnum : Int) (fden : Nat), 0 < fnum → fnum < (fden : Int) →
        (∀ (ms : List Marker) (i : Nat), i < ms.length →
            ms.getD i (.int 0) = .float fnum fden →
            (bitvecImplList e w ms).get i = false) ∧
        (∀ (n j : Nat), j < n →
            (bitvecImplRepeat e w (.float fnum fden) n).get j = false)) := by
  have hlist : ∀ (ms : List Marker) (i : Nat), i < ms.length → ∀ v : Int,
      ms.getD i (.int 0) = .int v →
      (bitvecImplList e w ms).get i = decide (0 < v % 256) := by
    intro ms i hi v hgetd
    rw [implList_get e w hw ms i hi, hgetd, markerBit_int]
  have hrep : ∀ (v : Int) (n j : Nat), j < n →
      (bitvecImplRepeat e w (.int v) n).get j = decide (0 < v % 256) := by
    intro v n j hj
    rw [implRepeat_get e w hw _ n j hj, markerBit_int]
  refine ⟨hlist, hrep, ?_, ?_⟩
  · intro v hv hmod
    constructor
    · intro ms i hi hgetd
      rw [hlist ms i hi v hgetd]
      simp [hmod]
    · intro n j hj
      rw [hrep v n j hj]
      simp [hmod]
  · intro fnum fden h0 h1
    constructor
    · intro ms i hi hgetd
      rw [implList_get e w hw ms i hi, hgetd,
        markerBit_float_lt_one fnum fden h0 h1]
    · intro n j hj
      rw [implRepeat_get e w hw _ n j hj,
        markerBit_float_lt_one fnum fden h0 h1]

theorem c9_cast_before_compare_witness :
    ((bitvecImplList .BigEndian 8 [.bool true, .int (-1)]).get 1
        = decide (0 < (-1 : Int) % 256)) ∧
    ((bitvecImplList .BigEndian 8 [.int 1, .int 256]).get 1 = false) ∧
    ((bitvecImplRepeat .BigEndian 8 (.int 512) 3).get 1 = false) ∧
    ((bitvecImplList .BigEndian 8 [.int 0, .float 1 2]).get 1 = false) ∧
    ((bitvecImplRepeat .BigEndian 8 (.float 1 2) 4).get 2 = false) := by
  have h := c9_cast_before_compare .BigEndian 8 (by decide)
  exact ⟨h.1 [.bool true, .int (-1)] 1 (by decide) (-1) rfl,
    (h.2.2.1 256 (by decide) (by decide)).1 [.int 1, .int 256] 1 (by decide) rfl,
    (h.2.2.1 512 (by decide) (by decide)).2 3 1 (by decide),
    (h.2.2.2 1 2 (by decide) (by decide)).1 [.int 0, .float 1 2] 1 (by decide) rfl,
    (h.2.2.2 1 2 (by decide) (by decide)).2 4 2 (by decide)⟩

/-- C10: every generated shift adapter hands the canonical algorithm the
amount reduced mod `2 ^ usizeBits` — a plain truncating cast with no
guard, saturation or failure: an amount of exactly `2 ^ usizeBits`
(expressible in a wider operand type) therefore shifts by 0 and leaves
every bit unchanged, rather than zeroing the vector or erroring. -/
theorem c10_truncating_cast (v : BitVec) (n : Nat) (hw : 0 < v.width) :
    v.shlOp n = v.shl (n % 2 ^ usizeBits) ∧
    v.shrOp n = v.shr (n % 2 ^ usizeBits) ∧
    sliceShlAssignOp v n = v.shl (n % 2 ^ usizeBits) ∧
    sliceShrAssignOp v n = v.shr (n % 2 ^ usizeBits) ∧
    (∀ i, i < v.len → (v.shlOp (2 ^ usizeBits)).get i = v.get i) ∧
    (∀ i, i < v.len → (v.shrOp (2 ^ usizeBits)).get i = v.get i) := by
  have hzero : castUsize (2 ^ usizeBits) = 0 := Nat.mod_self _
  refine ⟨rfl, rfl, rfl, rfl, ?_, ?_⟩
  · intro i hi
    show (v.shl (castUsize (2 ^ usizeBits))).get i = v.get i
    rw [hzero, shl_get v hw 0 i hi]
    simp [hi]
  · intro i hi
    show (v.shr (castUsize (2 ^ usizeBits))).get i = v.get i
    rw [hzero, shr_get v hw 0 i hi]
    simp

theorem c10_truncating_cast_witness :
    (bitvecListPlain [.int 1, .int 0]).shlOp 3
        = (bitvecListPlain [.int 1, .int 0]).shl (3 % 2 ^ usizeBits) ∧
    ((bitvecListPlain [.int 1, .int 0]).shlOp (2 ^ usizeBits)).get 0
        = (bitvecListPlain [.int 1, .int 0]).get 0 := by
  have h := c10_truncating_cast (bitvecListPlain [.int 1, .int 0]) 3 (by decide)
  exact ⟨h.1, h.2.2.2.2.1 0 (by decide)⟩

end Bitvec
